import Mathlib

/-!
# Verification of the ARX language-intelligence provider (`src/extension.ts`)

Shallow embedding of the descriptor parser, the registry loader and the
three editor-query providers (library-name completion, member completion,
signature help), followed by theorems settling the specification claims.

Strings are modelled as `List Char` where convenient; JavaScript regular
expressions are modelled by hand-written scanners that reproduce the
deterministic behaviour of the specific patterns used by the source
(each pattern is analysed in a comment where it is embedded).
-/

namespace Arx

/-- JavaScript `\w` character class (the source uses regexes without the
unicode flag, so `\w` is `[A-Za-z0-9_]`). -/
def isWordChar (c : Char) : Bool := c.isAlphanum || c == '_'

/-- JavaScript `\s` character class, restricted to its ASCII members
(space, tab, line feed, carriage return, vertical tab, form feed). -/
def isSpaceJS (c : Char) : Bool :=
  c == ' ' || c == '\t' || c == '\n' || c == '\r' || c == '\x0b' || c == '\x0c'

/-- JavaScript `String.prototype.endsWith` (a code-unit suffix test),
expressed over the character lists. -/
def strEndsWith (s suffix_ : String) : Bool :=
  suffix_.toList.isSuffixOf s.toList

/-- JavaScript `String.prototype.startsWith` (the case-sensitive
substring-at-start test the member-completion filter uses). -/
def strStartsWith (s pre : String) : Bool :=
  pre.toList.isPrefixOf s.toList

/-- `interface LibFunction` of the source.  `argType` is the raw
comma-separated list of argument types, exactly as the source stores it
(the source field `alias` is rendered `aliasName` here). -/
structure LibFunction where
  name : String
  argType : String
  aliasName : String
  returnType : String
deriving DecidableEq, Repr

/-- The process-wide `libFunctions` map, modelled as an insertion-ordered
association list (JavaScript `Map` preserves insertion order). -/
abbrev Registry := List (String × List LibFunction)

/-- `Map.prototype.set`: replace in place when the key exists (keeping its
position), otherwise append. -/
def mapSet (reg : Registry) (k : String) (v : List LibFunction) : Registry :=
  if (List.any reg fun p => p.1 == k) then
    List.map (fun p => if p.1 == k then (k, v) else p) reg
  else
    reg ++ [(k, v)]

/-- `Map.prototype.get`, as an `Option`. -/
def mapGet (reg : Registry) (k : String) : Option (List LibFunction) :=
  Option.map Prod.snd (List.find? (fun p => p.1 == k) reg)

/-- `Map.prototype.keys`, in insertion order. -/
def mapKeys (reg : Registry) : List String := List.map Prod.fst reg

/-! ## String splitting (JavaScript `String.prototype.split`) -/

/-- First occurrence of the (nonempty) separator `sep` in the input:
`findSplit sep cs = some (b, a)` means `cs = b ++ sep ++ a` and no earlier
position starts an occurrence of `sep`. -/
def findSplit (sep : List Char) : List Char → Option (List Char × List Char)
  | [] => none
  | c :: cs =>
    if sep.isPrefixOf (c :: cs) then some ([], (c :: cs).drop sep.length)
    else
      match findSplit sep cs with
      | some (b, a) => some (c :: b, a)
      | none => none

/-- The `"[functions]"` section marker. -/
def sepMarker : List Char := "[functions]".toList

/-- `content.split("[functions]")[1]` followed by the source's falsy test
`if (!funcSection) continue`: the text strictly between the first and the
second occurrence of the marker (up to the end when the marker occurs only
once); `none` when the marker is absent or that text is empty. -/
def funcSection (content : String) : Option String :=
  match findSplit sepMarker content.toList with
  | none => none
  | some (_, rest) =>
    let piece :=
      match findSplit sepMarker rest with
      | none => rest
      | some (b, _) => b
    if piece.isEmpty then none else some piece.asString

/-- `String.prototype.split` with a single-character separator
(accumulator-based scan). -/
def splitCharAux (sep : Char) : List Char → List Char → List (List Char)
  | acc, [] => [acc.reverse]
  | acc, c :: cs =>
    if c == sep then acc.reverse :: splitCharAux sep [] cs
    else splitCharAux sep (c :: acc) cs

/-- `s.split(sep)` for a single-character separator. -/
def splitChar (sep : Char) (cs : List Char) : List (List Char) :=
  splitCharAux sep [] cs

/-! ## The function-declaration line scanner

The source matches each line against
`/^(\w+:\w+(?:,\w+)*)\s*=\s*(\w+)\s*>\s*(\w+)/`.
Because `\w` excludes `:`, `,`, `=`, `>` and all of `\s`, every quantifier
in this pattern is forced to its maximal munch (shrinking any `\w+` or
`\s*` leaves a word (resp. space) character in a position that only a
non-word (resp. non-space) character can satisfy), so the anchored regex
is equivalent to the deterministic scanner below. -/

/-- `(?:,\w+)*`, greedily, with a step-count in structural position (every
iteration consumes at least two characters, so `cs.length` steps always
suffice): returns the consumed characters and the rest.  A `,` not
followed by a word character is left unconsumed (the group iteration
fails and the starred group matches zero further times). -/
def argGroupsAux : Nat → List Char → List Char × List Char
  | 0, cs => ([], cs)
  | _ + 1, [] => ([], [])
  | n + 1, c :: rest =>
    if c = ',' then
      let w := rest.takeWhile isWordChar
      if w.isEmpty then ([], c :: rest)
      else
        let p := argGroupsAux n (rest.dropWhile isWordChar)
        (',' :: (w ++ p.1), p.2)
    else ([], c :: rest)

/-- `(?:,\w+)*` at the current position. -/
def argGroups (cs : List Char) : List Char × List Char :=
  argGroupsAux cs.length cs

/-- The anchored line regex: on success, the three capture groups
(`argString`, `alias`, `returnType`). -/
def matchFuncLine (cs : List Char) : Option (List Char × List Char × List Char) :=
  let w1 := cs.takeWhile isWordChar
  if w1.isEmpty then none else
  match cs.dropWhile isWordChar with
  | ':' :: r1 =>
    let w2 := r1.takeWhile isWordChar
    if w2.isEmpty then none else
    let p := argGroups (r1.dropWhile isWordChar)
    match p.2.dropWhile isSpaceJS with
    | '=' :: r3 =>
      let al := (r3.dropWhile isSpaceJS).takeWhile isWordChar
      if al.isEmpty then none else
      match ((r3.dropWhile isSpaceJS).dropWhile isWordChar).dropWhile isSpaceJS with
      | '>' :: r4 =>
        let rt := (r4.dropWhile isSpaceJS).takeWhile isWordChar
        if rt.isEmpty then none else
        some (w1 ++ ':' :: (w2 ++ p.1), al, rt)
      | _ => none
    | _ => none
  | _ => none

/-- One loop iteration of the parser: on a regex match, destructure
`argString.split(":")` as `[name, ...args]` and join `args` back with
`":"`, exactly as the source does. -/
def parseLine (cs : List Char) : Option LibFunction :=
  match matchFuncLine cs with
  | none => none
  | some (argString, al, rt) =>
    match splitChar ':' argString with
    | [] => none
    | name :: args =>
      some ⟨name.asString, (List.intercalate [':'] args).asString, al.asString, rt.asString⟩

/-- `funcSection.split("\n")`, then push a record per matching line:
records appear in the order of their matching lines. -/
def parseFunctions (sec : String) : List LibFunction :=
  List.filterMap parseLine (splitChar '\n' sec.toList)

/-! ## The directory loader (`loadMapFiles`) -/

/-- One directory entry as `reload()` sees it: its filename and the result
of `fs.readFileSync` (`none` models the read throwing). -/
structure MapFile where
  fname : String
  content : Option String
deriving DecidableEq, Repr

/-- The filesystem state `loadMapFiles` runs against: whether the resolved
`c_map` directory exists (`false` also covers the no-workspace-root case)
and the directory's entries in enumeration order. -/
structure DirState where
  dirExists : Bool
  files : List MapFile
deriving DecidableEq, Repr

/-- `path.basename(file, ".map")`: strips the `.map` suffix unless the
whole name is the suffix. -/
def stripMapExt (fname : String) : String :=
  if strEndsWith fname ".map" && decide (4 < fname.toList.length) then
    (fname.toList.take (fname.toList.length - 4)).asString
  else fname

/-- The `for (const file of fs.readdirSync(mapDir))` loop.  The second
component records whether an exception escaped: the source wraps
`fs.readFileSync` in no try/catch, so a failing read aborts the loop with
the registry as mutated so far. -/
def processFiles : List MapFile → Registry → Registry × Bool
  | [], reg => (reg, false)
  | f :: rest, reg =>
    if !(strEndsWith f.fname ".map") then processFiles rest reg
    else
      match f.content with
      | none => (reg, true)
      | some content =>
        match funcSection content with
        | none => processFiles rest reg
        | some sec =>
          processFiles rest (mapSet reg (stripMapExt f.fname) (parseFunctions sec))

/-- `loadMapFiles()`.  The source clears the registry *before* testing the
directory, so the prior registry contents `prev` are discarded on every
path; the boolean is `true` when a file-read exception escaped. -/
def loadMapFiles (d : DirState) (_prev : Registry) : Registry × Bool :=
  if d.dirExists then processFiles d.files [] else ([], false)

/-! ## Query provider 1: library names after `using`

The source tests the *full* line text against `/^\s*using\s+/` (anchored
only at the start: whatever follows the run of whitespace after `using`
is irrelevant, and the cursor position is never consulted).  `\s*` and
`\s+` are forced maximal as before (`u` is not a space character). -/

/-- `/^\s*using\s+/.test(lineText)`. -/
def usingTest (line : String) : Bool :=
  let r := line.toList.dropWhile isSpaceJS
  "using".toList.isPrefixOf r &&
    match r.drop 5 with
    | c :: _ => isSpaceJS c
    | [] => false

/-- The first completion provider: all registry keys after `using`,
otherwise the empty list. -/
def provideLibraryCompletions (reg : Registry) (line : String) : List String :=
  if usingTest line then mapKeys reg else []

/-! ## Query provider 2: member completion after `lib.prefix`

The source matches the full line against `/(\w+)\.(\w*)$/` (leftmost
match, end-anchored).  At a given start position the scanner is forced:
`(\w+)` must take the maximal word run (a shorter take leaves a word
character where `\.` is required), then a literal dot, then `(\w*)` must
reach the end of the string (it can only consume word characters, so the
rest of the string must be exactly a word run). -/

/-- One attempt of `/(\w+)\.(\w*)$/` at a fixed start position. -/
def memberTryAt (cs : List Char) : Option (String × String) :=
  let w1 := cs.takeWhile isWordChar
  if w1.isEmpty then none else
  match cs.dropWhile isWordChar with
  | '.' :: r2 =>
    if (r2.dropWhile isWordChar).isEmpty then
      some (w1.asString, (r2.takeWhile isWordChar).asString)
    else none
  | _ => none

/-- Leftmost matching of an (anchorless) pattern, as JavaScript
`String.prototype.match` without the global flag performs it: attempt the
pattern at each start position from the left; the first position that
matches wins. -/
def scanMatch (attempt : List Char → Option (String × String)) :
    List Char → Option (String × String)
  | [] => none
  | c :: cs => (attempt (c :: cs)).orElse fun _ => scanMatch attempt cs

/-- Leftmost match of `/(\w+)\.(\w*)$/`. -/
def memberMatch (cs : List Char) : Option (String × String) :=
  scanMatch memberTryAt cs

/-- The second completion provider: the functions of `Registry[libName]`
whose name starts with the typed prefix. -/
def provideMemberCompletions (reg : Registry) (line : String) : List LibFunction :=
  match memberMatch line.toList with
  | none => []
  | some (libName, pfx) =>
    match mapGet reg libName with
    | none => []
    | some funcs => funcs.filter fun fn => strStartsWith fn.name pfx

/-! ## Query provider 3: signature help

The source slices the line up to the cursor, matches
`/(\w+)\.(\w+)\(/` (leftmost match, unanchored), looks the identifiers up
in the registry, and counts *every* comma of the sliced text. -/

/-- One attempt of `/(\w+)\.(\w+)\(/` at a fixed start position (both
word runs forced maximal, then a literal open parenthesis). -/
def callTryAt (cs : List Char) : Option (String × String) :=
  let w1 := cs.takeWhile isWordChar
  if w1.isEmpty then none else
  match cs.dropWhile isWordChar with
  | '.' :: r1 =>
    let w2 := r1.takeWhile isWordChar
    if w2.isEmpty then none else
    match r1.dropWhile isWordChar with
    | '(' :: _ => some (w1.asString, w2.asString)
    | _ => none
  | _ => none

/-- Leftmost match of `/(\w+)\.(\w+)\(/`. -/
def callMatch (cs : List Char) : Option (String × String) :=
  scanMatch callTryAt cs

/-- JavaScript `String.prototype.trim` (over the `\s` class). -/
def trimJS (cs : List Char) : List Char :=
  ((cs.dropWhile isSpaceJS).reverse.dropWhile isSpaceJS).reverse

/-- `fn.argType ? fn.argType.split(",").map(a => a.trim()) : []`. -/
def splitArgs (argType : String) : List String :=
  if argType == "" then []
  else List.map (fun l => (trimJS l).asString) (splitChar ',' argType.toList)

/-- What the signature-help provider returns: the rendered signature
label and the active-parameter index (`Math.min` of two JavaScript
numbers, which may be `-1`). -/
structure SigHelp where
  label : String
  activeParameter : Int
deriving DecidableEq, Repr

/-- `provideSignatureHelp`: `line.slice(0, character)` is scanned for the
call pattern, the function is looked up, and the active parameter is
`Math.min(commaCount, args.length - 1)` where `commaCount` counts every
comma of the sliced text. -/
def provideSignatureHelp (reg : Registry) (line : String) (character : Nat) :
    Option SigHelp :=
  let textUntilPos := line.toList.take character
  match callMatch textUntilPos with
  | none => none
  | some (libName, funcName) =>
    match mapGet reg libName with
    | none => none
    | some funcs =>
      match funcs.find? (fun f => f.name == funcName) with
      | none => none
      | some fn =>
        let args := splitArgs fn.argType
        let commaCount := textUntilPos.count ','
        some
          { label := fn.name ++ "(" ++ String.intercalate ", " args ++ ") -> "
              ++ fn.returnType
            activeParameter := min (commaCount : Int) ((args.length : Int) - 1) }

/-! ## Helper lemmas -/

/-- A read failure aborts the enumeration loop: entries installed before
the failing file are kept, everything from the failing file on is dropped,
and the exception flag is set. -/
theorem processFiles_break (f : MapFile) (l2 : List MapFile)
    (hmap : strEndsWith f.fname ".map" = true) (hfail : f.content = none) :
    ∀ (l1 : List MapFile) (reg : Registry),
      processFiles (l1 ++ f :: l2) reg = ((processFiles l1 reg).1, true) := by
  intro l1
  induction l1 with
  | nil =>
    intro reg
    simp [processFiles, hmap, hfail]
  | cons g l1 ih =>
    intro reg
    by_cases hg : strEndsWith g.fname ".map"
    · cases hc : g.content with
      | none => simp [processFiles, hg, hc]
      | some c =>
        cases hs : funcSection c with
        | none => simp [processFiles, hg, hc, hs, ih]
        | some sec => simp [processFiles, hg, hc, hs, ih]
    · simp [processFiles, hg, ih]

/-- Keys of `mapSet`: membership adds exactly the inserted key. -/
theorem mem_mapKeys_mapSet (reg : Registry) (k lib : String) (v : List LibFunction) :
    lib ∈ mapKeys (mapSet reg k v) ↔ lib = k ∨ lib ∈ mapKeys reg := by
  by_cases hk : List.any reg fun p => p.1 == k
  · rcases List.any_eq_true.mp hk with ⟨p, hp, hpk⟩
    have hkmem : k ∈ mapKeys reg := List.mem_map.mpr ⟨p, hp, (eq_of_beq hpk).symm ▸ rfl⟩
    have hfun : (fun q : String × List LibFunction =>
        (if q.1 == k then (k, v) else q).1) = Prod.fst := by
      funext q
      by_cases hqk : q.1 == k
      · simp [hqk, eq_of_beq hqk]
      · simp [hqk]
    have hkeys : mapKeys (mapSet reg k v) = mapKeys reg := by
      simp only [mapSet, if_pos hk, mapKeys, List.map_map, Function.comp_def, hfun]
    rw [hkeys]
    constructor
    · exact fun h => Or.inr h
    · rintro (h | h)
      · exact h ▸ hkmem
      · exact h
  · simp only [mapSet, if_neg hk, mapKeys, List.map_append, List.mem_append,
      List.map_cons, List.map_nil, List.mem_cons, List.not_mem_nil, or_false]
    tauto

/-- Membership in the keys of a finished (exception-free) enumeration. -/
theorem processFiles_mem_keys (lib : String) :
    ∀ (files : List MapFile) (reg : Registry),
      (processFiles files reg).2 = false →
      (lib ∈ mapKeys (processFiles files reg).1 ↔
        lib ∈ mapKeys reg ∨
          ∃ f ∈ files, strEndsWith f.fname ".map" = true ∧ stripMapExt f.fname = lib ∧
            ∃ c, f.content = some c ∧ (funcSection c).isSome = true) := by
  intro files
  induction files with
  | nil =>
    intro reg _
    simp [processFiles]
  | cons f files ih =>
    intro reg hok
    by_cases hf : strEndsWith f.fname ".map"
    · cases hc : f.content with
      | none =>
        rw [show processFiles (f :: files) reg = (reg, true) by
          simp [processFiles, hf, hc]] at hok
        simp at hok
      | some c =>
        cases hs : funcSection c with
        | none =>
          have hrw : processFiles (f :: files) reg = processFiles files reg := by
            simp [processFiles, hf, hc, hs]
          rw [hrw] at hok ⊢
          rw [ih reg hok]
          constructor
          · rintro (h | ⟨g, hg, hrest⟩)
            · exact Or.inl h
            · exact Or.inr ⟨g, List.mem_cons_of_mem _ hg, hrest⟩
          · rintro (h | ⟨g, hg, hrest⟩)
            · exact Or.inl h
            · rcases List.mem_cons.mp hg with hgf | hg'
              · subst hgf
                rcases hrest with ⟨_, _, c', hc', hsome⟩
                rw [hc] at hc'
                cases hc'
                rw [hs] at hsome
                simp at hsome
              · exact Or.inr ⟨g, hg', hrest⟩
        | some sec =>
          have hrw : processFiles (f :: files) reg
              = processFiles files (mapSet reg (stripMapExt f.fname) (parseFunctions sec)) := by
            simp [processFiles, hf, hc, hs]
          rw [hrw] at hok ⊢
          rw [ih _ hok, mem_mapKeys_mapSet]
          constructor
          · rintro ((h | h) | h)
            · exact Or.inr ⟨f, List.mem_cons_self .., hf, h.symm, c, hc, by simp [hs]⟩
            · exact Or.inl h
            · rcases h with ⟨g, hg, hrest⟩
              exact Or.inr ⟨g, List.mem_cons_of_mem _ hg, hrest⟩
          · rintro (h | ⟨g, hg, hrest⟩)
            · exact Or.inl (Or.inr h)
            · rcases List.mem_cons.mp hg with hgf | hg'
              · subst hgf
                exact Or.inl (Or.inl hrest.2.1.symm)
              · exact Or.inr ⟨g, hg', hrest⟩
    · have hrw : processFiles (f :: files) reg = processFiles files reg := by
        simp [processFiles, hf]
      rw [hrw] at hok ⊢
      rw [ih reg hok]
      constructor
      · rintro (h | ⟨g, hg, hrest⟩)
        · exact Or.inl h
        · exact Or.inr ⟨g, List.mem_cons_of_mem _ hg, hrest⟩
      · rintro (h | ⟨g, hg, hrest⟩)
        · exact Or.inl h
        · rcases List.mem_cons.mp hg with hgf | hg'
          · subst hgf
            exact absurd hrest.1 (by simpa using hf)
          · exact Or.inr ⟨g, hg', hrest⟩

/-! ## Claim C1 — read failure during reload -/

/-- **C1, counterexample.**  The claim states that when reading one
descriptor file fails, that file is skipped, the remaining files are still
installed, and no failure propagates.  In the source `fs.readFileSync` is
wrapped in no try/catch: with a directory whose first entry `a.map` fails
to read and whose second entry `b.map` is well-formed, the exception flag
is set (the failure escapes `loadMapFiles`) and `b` is never installed. -/
theorem c1_counterexample :
    (loadMapFiles ⟨true, [⟨"a.map", none⟩,
        ⟨"b.map", some "[functions]\nf:int = g > int"⟩]⟩ []).2 = true
    ∧ mapGet (loadMapFiles ⟨true, [⟨"a.map", none⟩,
        ⟨"b.map", some "[functions]\nf:int = g > int"⟩]⟩ []).1 "b" = none := by
  constructor <;> decide

/-- **C1, amended.**  If reading a descriptor file fails during
`reload()`, the failure propagates out of the operation: libraries from
files enumerated before the failing one keep their (freshly rebuilt)
entries, while the failing file and every later file contribute
nothing. -/
theorem c1_read_failure_aborts_reload (files1 files2 : List MapFile) (f : MapFile)
    (prev : Registry) (hmap : strEndsWith f.fname ".map" = true)
    (hfail : f.content = none) :
    loadMapFiles ⟨true, files1 ++ f :: files2⟩ prev
      = ((loadMapFiles ⟨true, files1⟩ prev).1, true) := by
  simpa [loadMapFiles] using processFiles_break f files2 hmap hfail files1 []

/-- Witness for the amended C1 at a concrete single-file directory. -/
theorem c1_read_failure_aborts_reload_witness :
    loadMapFiles ⟨true, [⟨"a.map", none⟩]⟩ []
      = ((loadMapFiles ⟨true, []⟩ []).1, true) :=
  c1_read_failure_aborts_reload [] [] ⟨"a.map", none⟩ [] (by decide) rfl

/-! ## Claim C2 — atomicity of reload -/

/-- **C2, counterexample.**  The claim states that when the descriptor
directory is absent, a previously populated Registry keeps exactly its
previous contents.  The source executes `libFunctions.clear()` *before*
the directory-existence check, so the surviving contents are empty, not
the previous ones. -/
theorem c2_counterexample :
    (loadMapFiles ⟨false, []⟩ [("lib", [⟨"f", "int", "g", "int"⟩])]).1
      ≠ [("lib", [⟨"f", "int", "g", "int"⟩])] := by
  decide

/-- **C2, amended.**  `reload()` never depends on the prior Registry
state: it either fully replaces the contents from the directory, or —
when the descriptor directory is absent or no project root is open —
leaves the Registry empty (a previously populated Registry is cleared,
not preserved). -/
theorem c2_reload_discards_previous_registry (d : DirState) (p q : Registry) :
    loadMapFiles d p = loadMapFiles d q
    ∧ (d.dirExists = false → loadMapFiles d p = ([], false)) := by
  refine ⟨rfl, fun h => ?_⟩
  simp [loadMapFiles, h]

/-- Witness for the amended C2 at an absent directory and a populated
prior registry. -/
theorem c2_reload_discards_previous_registry_witness :
    loadMapFiles ⟨false, []⟩ [("lib", [⟨"f", "int", "g", "int"⟩])]
        = loadMapFiles ⟨false, []⟩ []
    ∧ loadMapFiles ⟨false, []⟩ [("lib", [⟨"f", "int", "g", "int"⟩])] = ([], false) :=
  ⟨(c2_reload_discards_previous_registry ⟨false, []⟩
      [("lib", [⟨"f", "int", "g", "int"⟩])] []).1,
   (c2_reload_discards_previous_registry ⟨false, []⟩
      [("lib", [⟨"f", "int", "g", "int"⟩])] []).2 rfl⟩

/-! ## Claim C7 — idempotence of reload -/

/-- **C7.**  For a fixed filesystem state, running `reload()` twice in
succession yields identical Registry contents (keys, order and values):
the rebuild starts from a cleared registry, so the second run reproduces
the first exactly. -/
theorem c7_reload_idempotent (d : DirState) (prev : Registry) :
    loadMapFiles d (loadMapFiles d prev).1 = loadMapFiles d prev := rfl

/-! ## Claim C8 — the descriptor parser on the reference input -/

/-- **C8.**  Parsing `"[functions]\nconcat:str,str = strconcat > str\n"`
yields exactly one record with name `concat`, argument types
`str`,`str`, alias `strconcat` and return type `str`; non-matching lines
are silently dropped (removing a non-matching line does not change the
output), and the records are, in order, exactly the parses of the
matching lines. -/
theorem c8_parse_reference_input :
    funcSection "[functions]\nconcat:str,str = strconcat > str\n"
        = some "\nconcat:str,str = strconcat > str\n"
    ∧ parseFunctions "\nconcat:str,str = strconcat > str\n"
        = [⟨"concat", "str,str", "strconcat", "str"⟩]
    ∧ splitArgs "str,str" = ["str", "str"]
    ∧ (∀ (ls1 ls2 : List (List Char)) (bad : List Char), parseLine bad = none →
        List.filterMap parseLine (ls1 ++ bad :: ls2)
          = List.filterMap parseLine (ls1 ++ ls2))
    ∧ (∀ ls : List (List Char),
        List.filterMap parseLine ls
          = List.map (fun l => (parseLine l).getD ⟨"", "", "", ""⟩)
              (List.filter (fun l => (parseLine l).isSome) ls)) := by
  refine ⟨by decide, by decide, by decide, ?_, ?_⟩
  · intro ls1 ls2 bad h
    simp [List.filterMap_append, List.filterMap_cons, h]
  · intro ls
    induction ls with
    | nil => rfl
    | cons l ls ih =>
      cases h : parseLine l with
      | none => simp [List.filterMap_cons, List.filter_cons, h, ih]
      | some fn => simp [List.filterMap_cons, List.filter_cons, h, ih]

/-- Witness for C8's quantified parts at the concrete non-matching line
of the specification. -/
theorem c8_parse_reference_input_witness :
    List.filterMap parseLine [("not a valid line".toList)]
      = List.filterMap parseLine [] :=
  c8_parse_reference_input.2.2.2.1 [] [] ("not a valid line".toList) (by decide)

/-! ## Claim C10 — the `[functions]` marker -/

/-- **C10.**  A descriptor whose content has no text after a
`[functions]` marker — in particular one with no marker at all —
contributes no library: the marker-absent and the empty-section cases
both yield no section, a repeated marker restricts the scanned text to
what lies strictly between the first and second occurrences, and loading
a directory whose only file has no section leaves the Registry (and hence
library-name completion) empty. -/
theorem c10_functions_marker_sectioning :
    (∀ content : String,
        findSplit sepMarker content.toList = none → funcSection content = none)
    ∧ (∀ (content : String) (b : List Char),
        findSplit sepMarker content.toList = some (b, []) →
        funcSection content = none)
    ∧ (∀ (content : String) (b r1 mid rest : List Char),
        findSplit sepMarker content.toList = some (b, r1) →
        findSplit sepMarker r1 = some (mid, rest) →
        funcSection content = if mid.isEmpty then none else some mid.asString)
    ∧ (∀ (de : Bool) (fname c : String) (prev : Registry) (line : String),
        funcSection c = none →
        loadMapFiles ⟨de, [⟨fname, some c⟩]⟩ prev = ([], false)
        ∧ provideLibraryCompletions
            (loadMapFiles ⟨de, [⟨fname, some c⟩]⟩ prev).1 line = []) := by
  have key : ∀ (de : Bool) (fname c : String) (prev : Registry),
      funcSection c = none → loadMapFiles ⟨de, [⟨fname, some c⟩]⟩ prev = ([], false) := by
    intro de fname c prev h
    cases de with
    | false => rfl
    | true =>
      by_cases hf : strEndsWith fname ".map"
      · simp [loadMapFiles, processFiles, hf, h]
      · simp [loadMapFiles, processFiles, hf]
  refine ⟨?_, ?_, ?_, ?_⟩
  · intro content h
    have h' : findSplit sepMarker content.data = none := h
    simp [funcSection, h']
  · intro content b h
    have h' : findSplit sepMarker content.data = some (b, []) := h
    simp [funcSection, h', findSplit]
  · intro content b r1 mid rest h1 h2
    have h1' : findSplit sepMarker content.data = some (b, r1) := h1
    simp [funcSection, h1', h2]
  · intro de fname c prev line h
    refine ⟨key de fname c prev h, ?_⟩
    rw [key de fname c prev h]
    simp [provideLibraryCompletions, mapKeys]

/-- Witness for C10 at concrete descriptor contents: a marker-less file,
a double-marker file, and a directory whose only file has an empty
section. -/
theorem c10_functions_marker_sectioning_witness :
    funcSection "no marker here" = none
    ∧ funcSection "a[functions]sec1[functions]sec2" = some "sec1"
    ∧ loadMapFiles ⟨true, [⟨"lib.map", some "pre[functions]"⟩]⟩ [] = ([], false) := by
  refine ⟨c10_functions_marker_sectioning.1 "no marker here" (by decide), ?_, ?_⟩
  · have h := c10_functions_marker_sectioning.2.2.1
      "a[functions]sec1[functions]sec2" "a".toList
      ("sec1".toList ++ sepMarker ++ "sec2".toList)
      "sec1".toList "sec2".toList (by decide) (by decide)
    simpa using h
  · exact (c10_functions_marker_sectioning.2.2.2 true "lib.map" "pre[functions]" []
      "" (by decide)).1

/-! ## Scanning helpers -/

/-- Every character kept by `takeWhile` satisfies the predicate. -/
theorem all_takeWhile (p : Char → Bool) (l : List Char) :
    (l.takeWhile p).all p = true :=
  List.all_eq_true.mpr fun _ hx => List.mem_takeWhile_imp hx

/-- Dropping over an all-satisfying block continues into the tail. -/
theorem dropWhile_append_all (p : Char → Bool) (l1 l2 : List Char)
    (h : l1.all p = true) :
    (l1 ++ l2).dropWhile p = l2.dropWhile p := by
  induction l1 with
  | nil => rfl
  | cons a l1 ih =>
    simp only [List.all_cons, Bool.and_eq_true] at h
    simp [List.dropWhile_cons, h.1, ih h.2]

/-- Taking over an all-satisfying block keeps it and continues. -/
theorem takeWhile_append_all (p : Char → Bool) (l1 l2 : List Char)
    (h : l1.all p = true) :
    (l1 ++ l2).takeWhile p = l1 ++ l2.takeWhile p := by
  induction l1 with
  | nil => rfl
  | cons a l1 ih =>
    simp only [List.all_cons, Bool.and_eq_true] at h
    simp [List.takeWhile_cons, h.1, ih h.2]

/-! ## First-occurrence characterization of the anchorless scanners -/

/-- `scanMatch` returns the match at the leftmost start position whose
tail matches, and nothing earlier matches. -/
theorem scanMatch_eq_some_iff (attempt : List Char → Option (String × String))
    (h0 : attempt [] = none) :
    ∀ (cs : List Char) (v : String × String),
      scanMatch attempt cs = some v ↔
        ∃ i, attempt (cs.drop i) = some v
          ∧ ∀ j, j < i → attempt (cs.drop j) = none := by
  intro cs
  induction cs with
  | nil =>
    intro v
    simp [scanMatch, h0]
  | cons c cs ih =>
    intro v
    cases ht : attempt (c :: cs) with
    | some w =>
      have hred : scanMatch attempt (c :: cs) = some w := by
        simp [scanMatch, ht, Option.orElse]
      rw [hred]
      constructor
      · intro h
        refine ⟨0, ?_, fun j hj => absurd hj (Nat.not_lt_zero j)⟩
        rw [List.drop_zero, ht, h]
      · rintro ⟨i, hi, hj⟩
        cases i with
        | zero =>
          rw [List.drop_zero, ht] at hi
          exact hi
        | succ i' =>
          have := hj 0 (Nat.succ_pos i')
          rw [List.drop_zero, ht] at this
          exact absurd this (by simp)
    | none =>
      have hred : scanMatch attempt (c :: cs) = scanMatch attempt cs := by
        simp [scanMatch, ht, Option.orElse]
      rw [hred, ih v]
      constructor
      · rintro ⟨i, hi, hj⟩
        refine ⟨i + 1, by simpa using hi, fun j hjlt => ?_⟩
        cases j with
        | zero => simpa using ht
        | succ j' => simpa using hj j' (Nat.lt_of_succ_lt_succ hjlt)
      · rintro ⟨i, hi, hj⟩
        cases i with
        | zero =>
          rw [List.drop_zero, ht] at hi
          exact absurd hi (by simp)
        | succ i' =>
          refine ⟨i', by simpa using hi, fun j hjlt => ?_⟩
          simpa using hj (j + 1) (Nat.succ_lt_succ hjlt)

/-! ## Claim C3 — which call site signature help reports -/

/-- **C3, counterexample.**  The claim states that the call-site context
is the *last* occurrence of `identifier.identifier(` before the cursor,
so that in `"a.f(b.g("` the context is library `b`, function `g`.
`String.prototype.match` without the global flag returns the leftmost
match, so the code reports `a.f` — both at the scanner level and through
the full provider. -/
theorem c3_counterexample :
    callMatch ("a.f(b.g(".toList) ≠ some ("b", "g")
    ∧ provideSignatureHelp
        [("a", [⟨"f", "int", "ff", "int"⟩]), ("b", [⟨"g", "str", "gg", "str"⟩])]
        "a.f(b.g(" 8
        ≠ some ⟨"g(str) -> str", 0⟩ := by
  constructor <;> decide

/-- **C3, amended.**  The call-site context used by `signatureHelp` is
the *first* (leftmost) occurrence in the text from line start up to the
cursor of the shape `identifier.identifier(`: `callMatch` returns the
match of the earliest start position at which the shape matches, with
every earlier start position failing; in `"a.f(b.g("` with the cursor at
the end the context is library `a`, function `f`. -/
theorem c3_call_context_is_first_occurrence :
    (∀ (cs : List Char) (v : String × String),
        callMatch cs = some v ↔
          ∃ i, callTryAt (cs.drop i) = some v
            ∧ ∀ j, j < i → callTryAt (cs.drop j) = none)
    ∧ provideSignatureHelp
        [("a", [⟨"f", "int", "ff", "int"⟩]), ("b", [⟨"g", "str", "gg", "str"⟩])]
        "a.f(b.g(" 8
        = some ⟨"f(int) -> int", 0⟩ :=
  ⟨fun cs v => scanMatch_eq_some_iff callTryAt rfl cs v, by decide⟩

/-- Witness for C3's characterization at the double-call line. -/
theorem c3_call_context_is_first_occurrence_witness :
    callMatch ("a.f(b.g(".toList) = some ("a", "f") :=
  (c3_call_context_is_first_occurrence.1 ("a.f(b.g(".toList) ("a", "f")).mpr
    ⟨0, by decide, fun j hj => absurd hj (Nat.not_lt_zero j)⟩

/-! ## Claim C4 — the active-argument index -/

/-- **C4, counterexample.**  The claim states the active index counts only
the commas between the matched open-parenthesis and the cursor and is
clamped to `[0, argTypes.length - 1]`, with zero-argument functions
yielding 0.  The source counts *every* comma of the text before the
cursor (the line `"x, mathlib.add("` yields index 1 although no comma
follows the parenthesis), and `Math.min(commaCount, args.length - 1)`
yields -1, not 0, for a zero-argument function. -/
theorem c4_counterexample :
    provideSignatureHelp [("mathlib", [⟨"add", "int,int", "plus", "int"⟩])]
        "x, mathlib.add(" 15
      = some ⟨"add(int, int) -> int", 1⟩
    ∧ provideSignatureHelp [("m", [⟨"z", "", "zz", "void"⟩])] "m.z(" 4
      = some ⟨"z() -> void", -1⟩ := by
  constructor <;> decide

/-- **C4, amended.**  The active argument index equals
`min(commaCount, argTypes.length - 1)` where `commaCount` counts *all*
commas in the text from line start up to the cursor (commas before the
open-parenthesis contribute) and there is no lower clamp: a
zero-argument function yields -1.  The `"mathlib.add(1,"` example still
yields index 1 (witness). -/
theorem c4_active_parameter_formula (reg : Registry) (line : String) (ch : Nat)
    (lib fname : String) (funcs : List LibFunction) (fn : LibFunction)
    (h1 : callMatch (line.toList.take ch) = some (lib, fname))
    (h2 : mapGet reg lib = some funcs)
    (h3 : funcs.find? (fun f => f.name == fname) = some fn) :
    provideSignatureHelp reg line ch
      = some ⟨fn.name ++ "(" ++ String.intercalate ", " (splitArgs fn.argType)
            ++ ") -> " ++ fn.returnType,
          min ((line.toList.take ch).count ',' : Int)
            (((splitArgs fn.argType).length : Int) - 1)⟩ := by
  have h1' : callMatch (line.data.take ch) = some (lib, fname) := h1
  simp [provideSignatureHelp, h1', h2, h3]

/-- Witness for the amended C4: the specification's own example
`"mathlib.add(1,"` with the cursor right after the comma. -/
theorem c4_active_parameter_formula_witness :
    provideSignatureHelp [("mathlib", [⟨"add", "int,int", "plus", "int"⟩])]
        "mathlib.add(1," 14
      = some ⟨"add(int, int) -> int", 1⟩ := by
  rw [c4_active_parameter_formula
    [("mathlib", [⟨"add", "int,int", "plus", "int"⟩])] "mathlib.add(1," 14
    "mathlib" "add" [⟨"add", "int,int", "plus", "int"⟩]
    ⟨"add", "int,int", "plus", "int"⟩ (by decide) (by decide) (by decide)]
  decide

/-! ## Claim C5 — library-name completion after `using` -/

/-- **C5, counterexample.**  The claim states the completion fires only
when the text up to the cursor is exactly optional whitespace, `using`,
and whitespace — nothing else.  The source tests `/^\s*using\s+/` against
the *full* line, which is satisfied by `"using x y"` although more text
follows the keyword, so every library name is still returned. -/
theorem c5_counterexample :
    provideLibraryCompletions [("m", [])] "using x y" = ["m"]
    ∧ (["m"] : List String) ≠ [] := by
  constructor <;> decide

/-- **C5, amended.**  Library-name completion fires exactly when the
*full line* text starts with optional whitespace, the keyword `using`,
then at least one whitespace character — regardless of the cursor
position and of whatever else follows on the line; in that case it
returns every LibraryName in the Registry and otherwise the empty
list. -/
theorem c5_library_completion_characterization :
    (∀ line : String, usingTest line = true ↔
        ∃ ws rest : List Char,
          line.toList = ws ++ ("using".toList ++ rest)
          ∧ ws.all isSpaceJS = true
          ∧ ∃ c rest', rest = c :: rest' ∧ isSpaceJS c = true)
    ∧ (∀ (reg : Registry) (line : String),
        provideLibraryCompletions reg line
          = if usingTest line then mapKeys reg else []) := by
  constructor
  · intro line
    constructor
    · intro h
      simp only [usingTest, Bool.and_eq_true] at h
      obtain ⟨hpre, hm⟩ := h
      obtain ⟨t, ht⟩ := (List.isPrefixOf_iff_prefix.mp hpre)
      have hdrop5 : (line.toList.dropWhile isSpaceJS).drop 5 = t := by
        rw [← ht]
        exact List.drop_left "using".toList t
      rw [hdrop5] at hm
      cases t with
      | nil => simp at hm
      | cons c rest' =>
        refine ⟨line.toList.takeWhile isSpaceJS, c :: rest', ?_,
          all_takeWhile isSpaceJS line.toList, c, rest', rfl, hm⟩
        rw [ht, List.takeWhile_append_dropWhile]
    · rintro ⟨ws, rest, hline, hws, c, rest', hrest, hc⟩
      subst hrest
      have hu : isSpaceJS 'u' = false := by decide
      have hdrop : (line.toList.dropWhile isSpaceJS) = "using".toList ++ c :: rest' := by
        rw [hline, dropWhile_append_all isSpaceJS ws _ hws]
        show (('u' :: "sing".toList) ++ c :: rest').dropWhile isSpaceJS = _
        simp [List.dropWhile_cons, hu]
      have hdrop5 : ("using".toList ++ c :: rest').drop 5 = c :: rest' :=
        List.drop_left "using".toList (c :: rest')
      simp only [usingTest, Bool.and_eq_true, hdrop, hdrop5]
      exact ⟨List.isPrefixOf_iff_prefix.mpr (List.prefix_append ..), hc⟩
  · intro reg line
    rfl

/-- Witness for C5 at a line with leading whitespace and trailing
text. -/
theorem c5_library_completion_characterization_witness :
    usingTest "  using x" = true
    ∧ provideLibraryCompletions [("m", [])] "  using x"
        = if usingTest "  using x" then mapKeys [("m", [])] else [] :=
  ⟨(c5_library_completion_characterization.1 "  using x").mpr
      ⟨"  ".toList, ' ' :: "x".toList, by decide, by decide, ' ', "x".toList,
        rfl, by decide⟩,
   c5_library_completion_characterization.2 [("m", [])] "  using x"⟩

/-! ## Claim C6 — the registry mirrors the directory after a rebuild -/

/-- **C6, counterexample.**  The claim states that after a completed
reload the Registry maps exactly the library names derived from the
`.map` files present.  A present `lib.map` whose content lacks a
`[functions]` marker contributes no entry at all, so the key set can be
strictly smaller than the set of `.map` stems. -/
theorem c6_counterexample :
    mapKeys (loadMapFiles ⟨true, [⟨"lib.map", some "hello"⟩]⟩ []).1 = []
    ∧ ([] : List String) ≠ ["lib"] := by
  constructor <;> decide

/-- **C6, amended.**  After every completed (exception-free) `reload()`
over an existing directory, a library name is in the Registry iff the
directory holds a readable `.map` file with that stem whose content has
a non-empty section after the first `[functions]` marker.  In
particular, no entry derived from a file that is no longer present
survives a rebuild. -/
theorem c6_registry_keys_match_directory (d : DirState) (prev : Registry)
    (lib : String) (hdir : d.dirExists = true)
    (hok : (loadMapFiles d prev).2 = false) :
    lib ∈ mapKeys (loadMapFiles d prev).1 ↔
      ∃ f ∈ d.files, strEndsWith f.fname ".map" = true
        ∧ stripMapExt f.fname = lib
        ∧ ∃ c, f.content = some c ∧ (funcSection c).isSome = true := by
  have hload : loadMapFiles d prev = processFiles d.files [] := by
    simp [loadMapFiles, hdir]
  rw [hload] at hok ⊢
  rw [processFiles_mem_keys lib d.files [] hok]
  simp [mapKeys]

/-- Witness for the amended C6 at a one-file directory whose descriptor
has a proper `[functions]` section. -/
theorem c6_registry_keys_match_directory_witness :
    "lib" ∈ mapKeys
        (loadMapFiles ⟨true, [⟨"lib.map", some "x[functions]f:int = g > int"⟩]⟩ []).1
      ↔ ∃ f ∈ [(⟨"lib.map", some "x[functions]f:int = g > int"⟩ : MapFile)],
          strEndsWith f.fname ".map" = true
          ∧ stripMapExt f.fname = "lib"
          ∧ ∃ c, f.content = some c ∧ (funcSection c).isSome = true :=
  c6_registry_keys_match_directory
    ⟨true, [⟨"lib.map", some "x[functions]f:int = g > int"⟩]⟩ [] "lib" rfl
    (by decide)

/-! ## Claim C9 — member completion filtering

The supporting lemmas show that on a line of the shape
`pre ++ lib ++ "." ++ pfx` — `lib` a nonempty identifier, `pfx` identifier
characters, `pre` not ending in an identifier character — the end-anchored
scanner can only fire at the position of `lib` (a successful match
contains exactly one non-word character, while any tail beginning inside
`pre` contains at least two), so it reports exactly `(lib, pfx)`. -/

/-- A successful end-anchored attempt `\w+\.\w*$` covers exactly one
non-word character (its dot). -/
theorem memberTryAt_countP (cs : List Char) (v : String × String)
    (h : memberTryAt cs = some v) :
    cs.countP (fun c => !isWordChar c) = 1 := by
  simp only [memberTryAt] at h
  split at h
  · exact absurd h (by simp)
  · split at h
    · rename_i r2 heq
      split at h
      · rename_i h2
        have hsplit : cs = cs.takeWhile isWordChar ++ '.' :: r2 := by
          conv_lhs => rw [← List.takeWhile_append_dropWhile isWordChar cs]
          rw [heq]
        have c1 : (cs.takeWhile isWordChar).countP (fun c => !isWordChar c) = 0 :=
          List.countP_eq_zero.mpr fun a ha => by
            simp [List.mem_takeWhile_imp ha]
        have c2 : r2.countP (fun c => !isWordChar c) = 0 :=
          List.countP_eq_zero.mpr fun a ha => by
            have := List.dropWhile_eq_nil_iff.mp (List.isEmpty_iff.mp h2) a ha
            simp [this]
        rw [hsplit, List.countP_append, c1, List.countP_cons, c2]
        decide
      · exact absurd h (by simp)
    · exact absurd h (by simp)

/-- The end-anchored attempt succeeds at the position of the library
identifier and captures `(lib, pfx)`. -/
theorem memberTryAt_complete (lib pfx : List Char) (hlib : lib ≠ [])
    (hlibw : lib.all isWordChar = true) (hpfxw : pfx.all isWordChar = true) :
    memberTryAt (lib ++ '.' :: pfx) = some (lib.asString, pfx.asString) := by
  have hdot : isWordChar '.' = false := by decide
  have htake : (lib ++ '.' :: pfx).takeWhile isWordChar = lib := by
    rw [takeWhile_append_all isWordChar lib _ hlibw]
    simp [List.takeWhile_cons, hdot]
  have hdrop : (lib ++ '.' :: pfx).dropWhile isWordChar = '.' :: pfx := by
    rw [dropWhile_append_all isWordChar lib _ hlibw]
    simp [List.dropWhile_cons, hdot]
  have hpd : pfx.dropWhile isWordChar = [] :=
    List.dropWhile_eq_nil_iff.mpr fun x hx => List.all_eq_true.mp hpfxw x hx
  have hpt : pfx.takeWhile isWordChar = pfx := by
    have hsum := List.takeWhile_append_dropWhile isWordChar pfx
    rw [hpd, List.append_nil] at hsum
    exact hsum
  have hne : lib.isEmpty = false := by
    cases lib with
    | nil => exact absurd rfl hlib
    | cons a l => rfl
  simp [memberTryAt, htake, hdrop, hpd, hpt, hne]

/-- On a line of the shape `pre ++ lib ++ "." ++ pfx` the leftmost
end-anchored match is `(lib, pfx)`. -/
theorem memberMatch_append (pre lib pfx : List Char) (hlib : lib ≠ [])
    (hlibw : lib.all isWordChar = true) (hpfxw : pfx.all isWordChar = true)
    (hpre : ∀ x, pre.getLast? = some x → isWordChar x = false) :
    memberMatch (pre ++ (lib ++ '.' :: pfx)) = some (lib.asString, pfx.asString) := by
  induction pre with
  | nil =>
    cases lib with
    | nil => exact absurd rfl hlib
    | cons a lib' =>
      have hc := memberTryAt_complete (a :: lib') pfx (List.cons_ne_nil a lib')
        hlibw hpfxw
      show scanMatch memberTryAt (a :: (lib' ++ '.' :: pfx)) = _
      rw [scanMatch, show a :: (lib' ++ '.' :: pfx) = (a :: lib') ++ '.' :: pfx from rfl,
        hc]
      rfl
  | cons c pre' ih =>
    have hpre' : ∀ x, pre'.getLast? = some x → isWordChar x = false := by
      intro x hx
      cases pre' with
      | nil => simp at hx
      | cons d t =>
        exact hpre x (by rw [List.getLast?_cons_cons]; exact hx)
    have hfail : memberTryAt (c :: (pre' ++ (lib ++ '.' :: pfx))) = none := by
      cases hm : memberTryAt (c :: (pre' ++ (lib ++ '.' :: pfx))) with
      | none => rfl
      | some v =>
        exfalso
        have hcount := memberTryAt_countP _ v hm
        obtain ⟨x, hxmem, hxw⟩ :
            ∃ x ∈ c :: pre', (fun c => !isWordChar c) x = true := by
          refine ⟨(c :: pre').getLast (List.cons_ne_nil c pre'), List.getLast_mem _, ?_⟩
          simp [hpre _ (List.getLast?_eq_getLast (c :: pre') (List.cons_ne_nil c pre'))]
        have hl : 0 < (c :: pre').countP (fun c => !isWordChar c) :=
          List.countP_pos_iff.mpr ⟨x, hxmem, hxw⟩
        have hr : 0 < ('.' :: pfx).countP (fun c => !isWordChar c) :=
          List.countP_pos_iff.mpr ⟨'.', List.mem_cons_self .., by decide⟩
        have hsplit : c :: (pre' ++ (lib ++ '.' :: pfx))
            = ((c :: pre') ++ lib) ++ '.' :: pfx := by
          simp
        rw [hsplit, List.countP_append, List.countP_append] at hcount
        omega
    have hrec : memberMatch ((c :: pre') ++ (lib ++ '.' :: pfx))
        = memberMatch (pre' ++ (lib ++ '.' :: pfx)) := by
      show scanMatch memberTryAt (c :: (pre' ++ (lib ++ '.' :: pfx)))
          = scanMatch memberTryAt (pre' ++ (lib ++ '.' :: pfx))
      rw [scanMatch, hfail]
      rfl
    rw [hrec]
    exact ih hpre'

/-- **C9.**  On every line ending in `identifier.prefix` (a nonempty
identifier `lib`, a possibly-empty run `pfx` of identifier characters,
preceded by nothing or by text not ending in an identifier character),
member completion returns exactly the records of `Registry[lib]` whose
name starts with `pfx` under the case-sensitive substring-at-start test —
every function with the prefix and no function without it — and the empty
list when `lib` is not in the Registry. -/
theorem c9_member_completion_filter (reg : Registry) (pre lib pfx : List Char)
    (hlib : lib ≠ []) (hlibw : lib.all isWordChar = true)
    (hpfxw : pfx.all isWordChar = true)
    (hpre : ∀ x, pre.getLast? = some x → isWordChar x = false) :
    (mapGet reg lib.asString = none →
        provideMemberCompletions reg (pre ++ (lib ++ '.' :: pfx)).asString = [])
    ∧ ∀ funcs, mapGet reg lib.asString = some funcs →
        provideMemberCompletions reg (pre ++ (lib ++ '.' :: pfx)).asString
          = funcs.filter (fun fn => strStartsWith fn.name pfx.asString)
        ∧ ∀ fn, fn ∈ provideMemberCompletions reg (pre ++ (lib ++ '.' :: pfx)).asString
            ↔ fn ∈ funcs ∧ strStartsWith fn.name pfx.asString = true := by
  have hm : memberMatch ((pre ++ (lib ++ '.' :: pfx)).asString).toList
      = some (lib.asString, pfx.asString) :=
    memberMatch_append pre lib pfx hlib hlibw hpfxw hpre
  constructor
  · intro hnone
    show (match memberMatch ((pre ++ (lib ++ '.' :: pfx)).asString).toList with
      | none => []
      | some (libName, pfx) =>
        match mapGet reg libName with
        | none => []
        | some funcs => funcs.filter fun fn : LibFunction => strStartsWith fn.name pfx) = _
    rw [hm]
    show (match mapGet reg lib.asString with
      | none => []
      | some funcs => funcs.filter fun fn : LibFunction =>
          strStartsWith fn.name pfx.asString) = _
    rw [hnone]
  · intro funcs hsome
    have hres : provideMemberCompletions reg (pre ++ (lib ++ '.' :: pfx)).asString
        = funcs.filter (fun fn => strStartsWith fn.name pfx.asString) := by
      show (match memberMatch ((pre ++ (lib ++ '.' :: pfx)).asString).toList with
        | none => []
        | some (libName, pfx) =>
          match mapGet reg libName with
          | none => []
          | some funcs => funcs.filter fun fn : LibFunction => strStartsWith fn.name pfx) = _
      rw [hm]
      show (match mapGet reg lib.asString with
        | none => []
        | some funcs => funcs.filter fun fn : LibFunction =>
            strStartsWith fn.name pfx.asString) = _
      rw [hsome]
    refine ⟨hres, fun fn => ?_⟩
    rw [hres, List.mem_filter]

/-- Witness for C9: the specification's own `"mathlib.co"` example. -/
theorem c9_member_completion_filter_witness :
    provideMemberCompletions
        [("mathlib", [⟨"concat", "str,str", "strconcat", "str"⟩,
          ⟨"cos", "float", "c", "float"⟩, ⟨"add", "int,int", "plus", "int"⟩])]
        (([] ++ ("mathlib".toList ++ '.' :: "co".toList)).asString)
      = [⟨"concat", "str,str", "strconcat", "str"⟩,
         ⟨"cos", "float", "c", "float"⟩] := by
  have h := (c9_member_completion_filter
      [("mathlib", [⟨"concat", "str,str", "strconcat", "str"⟩,
        ⟨"cos", "float", "c", "float"⟩, ⟨"add", "int,int", "plus", "int"⟩])]
      [] "mathlib".toList "co".toList (by decide) (by decide) (by decide)
      (fun x hx => by cases hx)).2
      [⟨"concat", "str,str", "strconcat", "str"⟩,
        ⟨"cos", "float", "c", "float"⟩, ⟨"add", "int,int", "plus", "int"⟩]
      (by decide)
  rw [h.1]
  decide

end Arx
